import Mathlib

/-!
Verification of the proxygen static Huffman codec
(`proxygen/lib/http/codec/compress/Huffman.h`).

The repository snapshot contains only the header `Huffman.h`, which declares
`HuffNode`, `SuperHuffNode` and the `HuffTree` interface (`decode`, `encode`,
`getEncodeSize`, `getCode`, `insert`, `fillIndex`, `buildTree`).  The bodies
of these member functions live in `Huffman.cpp`, which is not part of the
snapshot, so the operational definitions below are modelled from the spec's
description of each algorithm (sections 4.1 to 4.4 of the design document);
the data-model declarations follow the header directly.

Machine integers are modelled as `Nat` (all the quantities involved are
byte values, bit counts and table indices, and no arithmetic here ever
exceeds the width of the corresponding C++ type, so no wrap-around is
reachable).  The decode loop is given explicit fuel, because its
termination is itself one of the claims under scrutiny: a malformed tree
containing a zero-bit leaf would make the C++ loop spin forever, and the
fuel makes that observable as a `none` result instead of baking
termination into the model.
-/

namespace ProxygenHuffman

/-- Node of the 8-bit-level Huffman tree, from `Huffman.h` (lines 24-32):
`ch` is the decoded character held by a leaf, `bits` how many bits of the
current 8-bit window the leaf's code occupies, and `superNode` the index of
the next-level lookup structure for a branch.  Modelled from the spec in one
respect: `ch` is a `Nat` rather than an 8-bit value so that the end-of-stream
pseudo-symbol (index 256, spec section 3) is representable at a leaf; the
header's `uint8_t ch` cannot carry it, but the spec's decode failure
condition "the decoded symbol equals the EOS pseudo-symbol" requires the
tree to distinguish it. -/
structure HuffNode where
  ch : Nat := 0
  bits : Nat := 0
  superNode : Nat := 0
deriving DecidableEq

/-- From `Huffman.h`: a node is a leaf exactly when its `superNode` index is
the sentinel value `0` (the root's own index, unreachable as a branch
target). -/
def HuffNode.isLeaf (n : HuffNode) : Bool := n.superNode == 0

/-- From `Huffman.h` (lines 37-39): a super node is a level structure of 256
nodes indexed by the next 8 bits of the stream.  The fixed C array
`HuffNode index[256]` is embedded as a total function; every lookup the
algorithms perform uses a key below 256. -/
structure SuperHuffNode where
  index : Nat → HuffNode

/-- A level structure with all slots zero-initialised, as the C++ value
initialisation of `table_[46]` produces. -/
def emptySuper : SuperHuffNode := ⟨fun _ => {}⟩

/-- Node lookup in the tree: level `s`, key `k`.  Out-of-range levels read as
all-zero (never reached by the algorithms on well-formed trees). -/
def getNode (t : List SuperHuffNode) (s k : Nat) : HuffNode :=
  (t.getD s emptySuper).index k

/-- Modelled from the spec (section 4.1, `HuffTree::fillIndex`): once at most
8 bits of a code remain, every key of the current level whose high-order
`bits` bits equal the code's remaining (right-aligned) tail is set to the
same leaf holding `ch` with consumed-bit count `bits`. -/
def fillIndex (sn : SuperHuffNode) (code : Nat) (bits : Nat) (ch : Nat) :
    SuperHuffNode :=
  ⟨fun k =>
    if k / 2 ^ (8 - bits) = code % 2 ^ bits then ⟨ch, bits, 0⟩ else sn.index k⟩

/-- Modelled from the spec (section 4.1, `HuffTree::insert` walking from
level `cur`): while more than 8 bits of the code remain, take the current
8-bit window as key; if that key holds no branch yet, allocate a fresh level
at the end of the level list and link it, then descend and consume 8 bits;
when at most 8 bits remain, range-fill the current level via `fillIndex`. -/
def insertFrom : List SuperHuffNode → Nat → Nat → Nat → Nat →
    List SuperHuffNode
  | t, cur, code, n + 9, ch =>
    let key := (code >>> (n + 1)) % 256
    let node := getNode t cur key
    if node.superNode == 0 then
      let newIdx := t.length
      let t1 := t.set cur
        ⟨fun k => if k = key then ⟨0, 0, newIdx⟩ else getNode t cur k⟩
      insertFrom (t1 ++ [emptySuper]) newIdx code (n + 1) ch
    else
      insertFrom t node.superNode code (n + 1) ch
  | t, cur, code, nbits, ch =>
    t.set cur (fillIndex (t.getD cur emptySuper) code nbits ch)

/-- Modelled from the spec (section 4.1): `HuffTree::insert` starts the walk
at the root level. -/
def insert (t : List SuperHuffNode) (code : Nat) (nbits : Nat) (ch : Nat) :
    List SuperHuffNode :=
  insertFrom t 0 code nbits ch

/-- Modelled from the spec (sections 2-4.1, `HuffTree::buildTree`): the tree
is built eagerly by inserting all 257 table entries (256 byte values plus the
EOS pseudo-symbol at index 256) into an initially empty root level. -/
def buildTree (codes bitsT : Nat → Nat) : List SuperHuffNode :=
  (List.range 257).foldl (fun t i => insertFrom t 0 (codes i) (bitsT i) i)
    [emptySuper]

/-- Big-endian bit decomposition: the `l` low-order bits of `n`,
most-significant first. -/
def natToBits (n : Nat) : Nat → List Bool
  | 0 => []
  | l + 1 => n.testBit l :: natToBits n l

/-- Value of a bit string read most-significant bit first. -/
def bitsToNat (bs : List Bool) : Nat :=
  bs.foldl (fun a b => 2 * a + (if b then 1 else 0)) 0

/-- The 8 bits of a byte, most-significant first (only the low 8 bits of the
argument are read, as when a `uint8_t` is loaded). -/
def byteToBits (b : Nat) : List Bool := natToBits b 8

/-- The bit stream carried by a byte buffer, most-significant bit of each
byte first. -/
def bytesToBits (buf : List Nat) : List Bool := (buf.map byteToBits).flatten

/-- All bits of the string are 1. -/
def allOnes (bs : List Bool) : Bool := bs.all (fun b => b)

/-- Modelled from the spec (section 4.2, step 1): the decode lookup key is
the next 8 bits at the cursor, with missing low-order bits (when fewer than
8 real bits remain) padded with 1s. -/
def lookupKey (bs : List Bool) : Nat :=
  bitsToNat (bs.take 8 ++ List.replicate (8 - bs.length) true)

/-- Modelled from the spec (section 4.2, `HuffTree::decode`): one loop, state
is the current level and the remaining real bits.  At a code boundary (root
level) the loop stops successfully when all real bits are consumed or only
valid all-1s padding of fewer than 8 bits remains.  Otherwise it looks up
the padded 8-bit key: a leaf appends its character and consumes the leaf's
bit count, failing if the decoded symbol is the EOS pseudo-symbol 256 or if
the leaf's bit count exceeds the real bits remaining; a branch descends one
level and consumes 8 bits, failing if fewer than 8 real bits remain.  The
`fuel` argument bounds the number of iterations; `none` means the loop ran
out of fuel, which on well-formed trees never happens (claim C5). -/
def decodeLoop (t : List SuperHuffNode) :
    Nat → Nat → List Bool → List Nat → Option (Bool × List Nat)
  | 0, _, _, _ => none
  | fuel + 1, cur, bs, acc =>
    if cur = 0 ∧ bs.length < 8 ∧ allOnes bs = true then
      some (true, acc)
    else
      let node := getNode t cur (lookupKey bs)
      if node.isLeaf then
        if node.ch = 256 then some (false, acc)
        else if bs.length < node.bits then some (false, acc)
        else decodeLoop t fuel 0 (bs.drop node.bits) (acc ++ [node.ch])
      else
        if bs.length < 8 then some (false, acc)
        else decodeLoop t fuel node.superNode (bs.drop 8) acc

/-- Modelled from the spec (section 4.2): `HuffTree::decode` runs the loop
from the root on the buffer's bit stream, appending decoded characters to
the caller's accumulator `literal`, and reports success as a boolean.  The
fuel `8 * buf.length + 1` is one more than the number of real bits, enough
for any run in which every iteration consumes at least one bit. -/
def decode (t : List SuperHuffNode) (buf : List Nat) (literal : List Nat) :
    Option (Bool × List Nat) :=
  decodeLoop t (8 * buf.length + 1) 0 (bytesToBits buf) literal

/-- The code of one character as a bit string, most-significant bit first:
entry `codes ch` of the flat table, right-aligned on `bitsT ch` bits. -/
def codeBits (codes bitsT : Nat → Nat) (ch : Nat) : List Bool :=
  natToBits (codes ch) (bitsT ch)

/-- Concatenated codes of a literal, in order, most-significant bit first. -/
def encodeBits (codes bitsT : Nat → Nat) (l : List Nat) : List Bool :=
  (l.map (codeBits codes bitsT)).flatten

/-- Pack a bit string into bytes, 8 bits per byte, most-significant first;
a trailing fragment of fewer than 8 bits is not emitted (`encode` always
pads the stream to a byte boundary before packing). -/
def bitsToBytes : List Bool → List Nat
  | b0 :: b1 :: b2 :: b3 :: b4 :: b5 :: b6 :: b7 :: rest =>
      bitsToNat [b0, b1, b2, b3, b4, b5, b6, b7] :: bitsToBytes rest
  | _ => []

/-- Number of 1-padding bits needed to bring a stream of `n` bits to the
next byte boundary. -/
def padBits (n : Nat) : Nat := (8 - n % 8) % 8

/-- Modelled from the spec (section 4.3, `HuffTree::encode`): each input
byte's code is appended to the bit accumulator most-significant bit first,
whole bytes are emitted as they complete, and the final partial byte is
padded with 1-bits; the function returns the bytes written (their count is
the returned size). -/
def encode (codes bitsT : Nat → Nat) (l : List Nat) : List Nat :=
  let bs := encodeBits codes bitsT l
  bitsToBytes (bs ++ List.replicate (padBits bs.length) true)

/-- Modelled from the spec (section 4.4, `HuffTree::getEncodeSize`): the sum
of the bit lengths of each byte's code, rounded up to whole bytes. -/
def getEncodeSize (bitsT : Nat → Nat) (l : List Nat) : Nat :=
  (l.foldl (fun a c => a + bitsT c) 0 + 7) / 8

/-- Modelled from the spec (section 4.5, `HuffTree::getCode`): direct flat
table lookup of the (code, bit length) pair of a character. -/
def getCode (codes bitsT : Nat → Nat) (ch : Nat) : Nat × Nat :=
  (codes ch, bitsT ch)

/-- Decidable check that the walk of one code through the tree is correct:
while more than 8 bits remain the current window's key holds a branch, and
once at most 8 bits remain every key of the fan-out range holds the leaf
`⟨ch, nbits, 0⟩`. -/
def walkCheck (t : List SuperHuffNode) : Nat → Nat → Nat → Nat → Bool
  | cur, code, n + 9, ch =>
    let node := getNode t cur ((code >>> (n + 1)) % 256)
    !node.isLeaf && walkCheck t node.superNode code (n + 1) ch
  | cur, code, nbits, ch =>
    (List.range (2 ^ (8 - nbits))).all fun j =>
      getNode t cur ((code % 2 ^ nbits) * 2 ^ (8 - nbits) + j) ==
        ⟨ch, nbits, 0⟩

/-- Decidable check that the tree realises every one of the 257 codes of the
flat table (spec sections 3 and 4.1). -/
def treeMatches (t : List SuperHuffNode) (codes bitsT : Nat → Nat) : Bool :=
  (List.range 257).all fun i => walkCheck t 0 (codes i) (bitsT i) i

/-- Decidable check that no byte value has an all-1s code shorter than
8 bits; this is what makes the all-1s padding unambiguous at a code
boundary (the padding is a proper prefix of the EOS code, spec section 3,
so prefix-freeness of a well-formed table guarantees this). -/
def padSafe (codes bitsT : Nat → Nat) : Bool :=
  (List.range 256).all fun i =>
    decide (8 ≤ bitsT i) || !(codes i % 2 ^ bitsT i == 2 ^ bitsT i - 1)

/-- Decidable check that every table entry has a positive bit length (spec
section 3: lengths are between 1 and 30). -/
def lenOK (bitsT : Nat → Nat) : Bool :=
  (List.range 257).all fun i => decide (1 ≤ bitsT i)

/-- Decidable per-slot consistency of a tree with the flat table, relative
to a prefix assignment `pfx` mapping each level to the (value, length) pair
of the bits consumed to reach it: a branch slot links below the level count
to a level whose prefix extends the current one by the 8-bit key, and a
leaf slot holds a symbol whose full code is exactly the level prefix
extended by the key's high-order `bits` bits. -/
def nodeFaithful (codes bitsT : Nat → Nat) (pfx : Nat → Nat × Nat)
    (len s k : Nat) (n : HuffNode) : Bool :=
  if n.superNode == 0 then
    decide (1 ≤ n.bits) && decide (n.bits ≤ 8) && decide (n.ch ≤ 256) &&
    (bitsT n.ch == (pfx s).2 + n.bits) &&
    (codes n.ch % 2 ^ bitsT n.ch ==
      (pfx s).1 * 2 ^ n.bits + k / 2 ^ (8 - n.bits))
  else
    (n.ch == 0) && (n.bits == 0) && decide (n.superNode < len) &&
    (pfx n.superNode == ((pfx s).1 * 256 + k, (pfx s).2 + 8))

/-- Decidable check that every slot of every level of the tree is consistent
with the flat table under the prefix assignment `pfx` (every slot filled:
for a complete prefix code such as the two standard HPACK tables, every
8-bit window of every level is covered by some code). -/
def faithfulWith (t : List SuperHuffNode) (codes bitsT : Nat → Nat)
    (pfx : Nat → Nat × Nat) : Bool :=
  decide (1 ≤ t.length) && (pfx 0 == (0, 0)) &&
  ((List.range t.length).all fun s =>
    (List.range 256).all fun k =>
      nodeFaithful codes bitsT pfx t.length s k (getNode t s k))

/-- Decidable check that the tree is bounded: at least the root level
exists, every leaf slot consumes at least one bit, and every branch slot
links inside the level list.  This is the structural property that makes
every decode step consume at least one bit of the cursor. -/
def boundedTree (t : List SuperHuffNode) : Bool :=
  decide (1 ≤ t.length) &&
  ((List.range t.length).all fun s =>
    (List.range 256).all fun k =>
      if (getNode t s k).superNode == 0 then decide (1 ≤ (getNode t s k).bits)
      else decide ((getNode t s k).superNode < t.length))

/-- Bits consumed to reach a level, as a bit string, under a prefix
assignment. -/
def pfxBits (pfx : Nat → Nat × Nat) (s : Nat) : List Bool :=
  natToBits (pfx s).1 (pfx s).2

/-- A concrete 257-entry prefix-free complete code table used as a model
instance of the caller-supplied standard tables (the spec fixes only their
shape, not their values, and `Huffman.cpp` with the draft-05 constants is
not part of the snapshot): byte values 0-254 get the 8-bit codes equal to
their value, byte 255 gets the 9-bit code `111111110`, and the EOS
pseudo-symbol 256 gets the all-1s 9-bit code `111111111`, so that padding
is a proper prefix of the EOS code exactly as HPACK mandates. -/
def wCodes (i : Nat) : Nat := if i ≤ 254 then i else if i = 255 then 510 else 511

/-- Bit lengths of the `wCodes` table. -/
def wBits (i : Nat) : Nat := if i ≤ 254 then 8 else 9

/-- The tree built from the model table. -/
def wTree : List SuperHuffNode := buildTree wCodes wBits

/-- Prefix assignment of `wTree`: the single non-root level is reached by
consuming the window `11111111`. -/
def wPfx (s : Nat) : Nat × Nat := if s = 0 then (0, 0) else (255, 8)

/-- Structural well-formedness of the branch links of a tree: every slot
either carries the leaf sentinel `superNode = 0` or links to an allocated
level strictly after the root (index at least 1 and below the level
count). -/
def goodNodes (t : List SuperHuffNode) : Prop :=
  ∀ s k : Nat, (getNode t s k).superNode = 0 ∨
    (1 ≤ (getNode t s k).superNode ∧ (getNode t s k).superNode < t.length)

theorem natToBits_length (n l : Nat) : (natToBits n l).length = l := by
  induction l with
  | zero => rfl
  | succ l ih => simp [natToBits, ih]

theorem natToBits_congr {m n : Nat} (l : Nat)
    (h : ∀ i, i < l → m.testBit i = n.testBit i) :
    natToBits m l = natToBits n l := by
  induction l with
  | zero => rfl
  | succ l ih =>
      simp only [natToBits]
      exact congrArg₂ _ (h l (Nat.lt_succ_self l)) (ih fun i hi => h i (by omega))

theorem natToBits_mod (n l : Nat) : natToBits (n % 2 ^ l) l = natToBits n l := by
  refine natToBits_congr l fun i hi => ?_
  simp [Nat.testBit_mod_two_pow, hi]

theorem natToBits_append (a r l m : Nat) (hr : r < 2 ^ m) :
    natToBits (2 ^ m * a + r) (l + m) = natToBits a l ++ natToBits r m := by
  induction l with
  | zero =>
      simp only [Nat.zero_add, natToBits, List.nil_append]
      refine natToBits_congr m fun i hi => ?_
      rw [Nat.testBit_mul_pow_two_add a hr i, if_pos hi]
  | succ l ih =>
      have hrc : l + 1 + m = (l + m) + 1 := by omega
      rw [hrc]
      simp only [natToBits, List.cons_append]
      refine congrArg₂ _ ?_ ih
      rw [Nat.testBit_mul_pow_two_add a hr (l + m), if_neg (by omega)]
      congr 1
      omega

theorem bitsToNat_go (a : Nat) (bs : List Bool) :
    bs.foldl (fun x b => 2 * x + (if b then 1 else 0)) a =
      a * 2 ^ bs.length + bitsToNat bs := by
  induction bs generalizing a with
  | nil => simp [bitsToNat]
  | cons b bs ih =>
      simp only [List.foldl_cons, bitsToNat, List.length_cons]
      rw [ih (2 * a + if b then 1 else 0), ih (2 * 0 + if b then 1 else 0)]
      ring

theorem bitsToNat_cons (b : Bool) (bs : List Bool) :
    bitsToNat (b :: bs) =
      (if b then 1 else 0) * 2 ^ bs.length + bitsToNat bs := by
  simp only [bitsToNat, List.foldl_cons]
  rw [bitsToNat_go]
  simp only [Nat.mul_zero, Nat.zero_add]
  rfl

theorem bitsToNat_append (xs ys : List Bool) :
    bitsToNat (xs ++ ys) = bitsToNat xs * 2 ^ ys.length + bitsToNat ys := by
  simp only [bitsToNat, List.foldl_append]
  rw [bitsToNat_go (List.foldl _ 0 xs) ys]
  rfl

theorem bitsToNat_lt (bs : List Bool) : bitsToNat bs < 2 ^ bs.length := by
  induction bs with
  | nil => simp [bitsToNat]
  | cons b bs ih =>
      rw [bitsToNat_cons]
      have h2 : (0:Nat) < 2 ^ bs.length := Nat.two_pow_pos _
      have h3 : (if b = true then 1 else 0) * 2 ^ bs.length ≤ 2 ^ bs.length := by
        split <;> omega
      simp only [List.length_cons, Nat.pow_succ]
      omega

theorem natToBits_bitsToNat (bs : List Bool) :
    natToBits (bitsToNat bs) bs.length = bs := by
  induction bs with
  | nil => rfl
  | cons b bs ih =>
      have hlt : bitsToNat bs < 2 ^ bs.length := bitsToNat_lt bs
      rw [bitsToNat_cons]
      simp only [List.length_cons, natToBits]
      refine congrArg₂ _ ?_ ?_
      · rw [Nat.mul_comm, Nat.testBit_mul_pow_two_add _ hlt, if_neg (by omega),
          Nat.sub_self]
        rcases b with _ | _ <;> rfl
      · have := natToBits_append (if b then 1 else 0) (bitsToNat bs) 0 bs.length hlt
        simp only [Nat.zero_add, natToBits, List.nil_append] at this
        rw [Nat.mul_comm] at this
        rw [this, ih]

theorem bitsToNat_natToBits (n l : Nat) : bitsToNat (natToBits n l) = n % 2 ^ l := by
  induction l with
  | zero => simp [natToBits, bitsToNat, Nat.mod_one]
  | succ l ih =>
      simp only [natToBits]
      rw [bitsToNat_cons, natToBits_length, ih, Nat.mod_pow_succ]
      have hd := Nat.mod_lt (n / 2 ^ l) (show 0 < 2 by omega)
      have h2 : (if n.testBit l then 1 else 0) = n / 2 ^ l % 2 := by
        rw [Nat.testBit_to_div_mod]
        rcases h : n / 2 ^ l % 2 with _ | m
        · simp [h]
        · rcases m with _ | m
          · simp [h]
          · omega
      rw [h2, Nat.mul_comm]
      omega

theorem allOnes_append (xs ys : List Bool) :
    allOnes (xs ++ ys) = (allOnes xs && allOnes ys) := by
  simp [allOnes, List.all_append]

theorem allOnes_replicate (n : Nat) : allOnes (List.replicate n true) = true := by
  simp [allOnes, List.all_eq_true]

theorem allOnes_eq_replicate {bs : List Bool} (h : allOnes bs = true) :
    bs = List.replicate bs.length true := by
  induction bs with
  | nil => rfl
  | cons b bs ih =>
      simp only [allOnes, List.all_cons, Bool.and_eq_true] at h
      simp only [List.length_cons, List.replicate_succ]
      exact congrArg₂ _ h.1 (ih h.2)

theorem bitsToNat_allOnes {bs : List Bool} (h : allOnes bs = true) :
    bitsToNat bs = 2 ^ bs.length - 1 := by
  induction bs with
  | nil => rfl
  | cons b bs ih =>
      simp only [allOnes, List.all_cons, Bool.and_eq_true] at h
      rw [bitsToNat_cons, ih h.2, h.1, if_pos rfl]
      have h2 : (0:Nat) < 2 ^ bs.length := Nat.pos_pow_of_pos _ (by omega)
      simp only [List.length_cons, Nat.pow_succ]
      omega

theorem byteToBits_length (b : Nat) : (byteToBits b).length = 8 :=
  natToBits_length b 8

theorem bytesToBits_cons (b : Nat) (buf : List Nat) :
    bytesToBits (b :: buf) = byteToBits b ++ bytesToBits buf := by
  simp [bytesToBits]

theorem bytesToBits_length (buf : List Nat) :
    (bytesToBits buf).length = 8 * buf.length := by
  induction buf with
  | nil => rfl
  | cons b buf ih =>
      rw [bytesToBits_cons, List.length_append, byteToBits_length, ih]
      simp only [List.length_cons]
      ring

theorem encodeBits_cons (codes bitsT : Nat → Nat) (c : Nat) (l : List Nat) :
    encodeBits codes bitsT (c :: l) =
      codeBits codes bitsT c ++ encodeBits codes bitsT l := by
  simp [encodeBits]

theorem foldl_add_init (f : Nat → Nat) (b : Nat) (l : List Nat) :
    l.foldl (fun a c => a + f c) b = b + l.foldl (fun a c => a + f c) 0 := by
  induction l generalizing b with
  | nil => simp
  | cons c l ih =>
      simp only [List.foldl_cons, Nat.zero_add]
      rw [ih (b + f c), ih (f c)]
      omega

theorem encodeBits_length (codes bitsT : Nat → Nat) (l : List Nat) :
    (encodeBits codes bitsT l).length = l.foldl (fun a c => a + bitsT c) 0 := by
  induction l with
  | nil => rfl
  | cons c l ih =>
      rw [encodeBits_cons, List.length_append, ih, codeBits, natToBits_length]
      simp only [List.foldl_cons, Nat.zero_add]
      rw [foldl_add_init bitsT (bitsT c) l]

theorem byteToBits_bitsToNat (a b c d e f g h : Bool) :
    byteToBits (bitsToNat [a, b, c, d, e, f, g, h]) = [a, b, c, d, e, f, g, h] := by
  revert a b c d e f g h
  decide

theorem bitsToBytes_short (bs : List Bool) (h : bs.length < 8) :
    bitsToBytes bs = [] := by
  unfold bitsToBytes
  split
  · rename_i b0 b1 b2 b3 b4 b5 b6 b7 rest
    exfalso
    simp only [List.length_cons] at h
    omega
  · rfl

theorem bitsToBytes_length (bs : List Bool) :
    (bitsToBytes bs).length = bs.length / 8 := by
  induction bs using bitsToBytes.induct with
  | case1 b0 b1 b2 b3 b4 b5 b6 b7 rest ih =>
      simp only [bitsToBytes, List.length_cons, ih]
      omega
  | case2 bs h =>
      rcases bs with _ | ⟨x0, _ | ⟨x1, _ | ⟨x2, _ | ⟨x3, _ | ⟨x4, _ | ⟨x5, _ |
        ⟨x6, _ | ⟨x7, r⟩⟩⟩⟩⟩⟩⟩⟩
      all_goals first
        | exact (h _ _ _ _ _ _ _ _ _ rfl).elim
        | (rw [bitsToBytes_short _ (by simp)]
           simp only [List.length_cons, List.length_nil])

theorem bytesToBits_bitsToBytes (bs : List Bool) (h : bs.length % 8 = 0) :
    bytesToBits (bitsToBytes bs) = bs := by
  induction bs using bitsToBytes.induct with
  | case1 b0 b1 b2 b3 b4 b5 b6 b7 rest ih =>
      have hr : rest.length % 8 = 0 := by
        simp only [List.length_cons] at h
        omega
      simp only [bitsToBytes, bytesToBits_cons, byteToBits_bitsToNat, ih hr]
      rfl
  | case2 bs hne =>
      rcases bs with _ | ⟨x0, _ | ⟨x1, _ | ⟨x2, _ | ⟨x3, _ | ⟨x4, _ | ⟨x5, _ |
        ⟨x6, _ | ⟨x7, r⟩⟩⟩⟩⟩⟩⟩⟩
      · rw [bitsToBytes_short _ (by simp)]; rfl
      all_goals first
        | exact (hne _ _ _ _ _ _ _ _ _ rfl).elim
        | (exfalso; simp only [List.length_cons, List.length_nil] at h; omega)

theorem lookupKey_lt (bs : List Bool) : lookupKey bs < 256 := by
  have hlen : (bs.take 8 ++ List.replicate (8 - bs.length) true).length = 8 := by
    simp only [List.length_append, List.length_take, List.length_replicate]
    omega
  have := bitsToNat_lt (bs.take 8 ++ List.replicate (8 - bs.length) true)
  rw [hlen] at this
  exact this

theorem lookupKey_long {bs : List Bool} (h : 8 ≤ bs.length) :
    lookupKey bs = bitsToNat (bs.take 8) := by
  unfold lookupKey
  rw [Nat.sub_eq_zero_of_le h, List.replicate_zero, List.append_nil]

theorem lookupKey_take (bs : List Bool) {b : Nat} (hb8 : b ≤ 8)
    (hbl : b ≤ bs.length) :
    lookupKey bs / 2 ^ (8 - b) = bitsToNat (bs.take b) := by
  have hKlen : (bs.take 8 ++ List.replicate (8 - bs.length) true).length = 8 := by
    simp only [List.length_append, List.length_take, List.length_replicate]
    omega
  have htake : (bs.take 8 ++ List.replicate (8 - bs.length) true).take b =
      bs.take b := by
    rw [List.take_append_of_le_length, List.take_take]
    · congr 1
      omega
    · simp only [List.length_take]
      omega
  have hsplit : lookupKey bs =
      bitsToNat ((bs.take 8 ++ List.replicate (8 - bs.length) true).take b) *
        2 ^ (8 - b) +
      bitsToNat ((bs.take 8 ++ List.replicate (8 - bs.length) true).drop b) := by
    unfold lookupKey
    conv_lhs =>
      rw [← List.take_append_drop b (bs.take 8 ++ List.replicate (8 - bs.length) true)]
    rw [bitsToNat_append, List.length_drop, hKlen]
  have hlt : bitsToNat ((bs.take 8 ++ List.replicate (8 - bs.length) true).drop b) <
      2 ^ (8 - b) := by
    have h := bitsToNat_lt ((bs.take 8 ++ List.replicate (8 - bs.length) true).drop b)
    rwa [List.length_drop, hKlen] at h
  rw [hsplit, htake, Nat.mul_comm, Nat.mul_add_div (Nat.two_pow_pos _),
    Nat.div_eq_of_lt hlt, Nat.add_zero]

theorem boundedTree_len {t : List SuperHuffNode} (hb : boundedTree t = true) :
    1 ≤ t.length := by
  simp only [boundedTree, Bool.and_eq_true, decide_eq_true_eq] at hb
  exact hb.1

theorem boundedTree_at {t : List SuperHuffNode} (hb : boundedTree t = true)
    {s k : Nat} (hs : s < t.length) (hk : k < 256) :
    ((getNode t s k).superNode = 0 → 1 ≤ (getNode t s k).bits) ∧
    ((getNode t s k).superNode ≠ 0 → (getNode t s k).superNode < t.length) := by
  simp only [boundedTree, Bool.and_eq_true, decide_eq_true_eq, List.all_eq_true,
    List.mem_range] at hb
  have h := hb.2 s hs k hk
  constructor
  · intro h0
    rw [if_pos (by simp [h0])] at h
    exact of_decide_eq_true h
  · intro h0
    rw [if_neg (by simp [h0])] at h
    exact of_decide_eq_true h

theorem decodeLoop_mono (t : List SuperHuffNode) :
    ∀ (f f' cur : Nat) (bs : List Bool) (acc : List Nat) (r : Bool × List Nat),
      decodeLoop t f cur bs acc = some r → f ≤ f' →
      decodeLoop t f' cur bs acc = some r := by
  intro f
  induction f with
  | zero => intro f' cur bs acc r h; exact absurd h (by simp [decodeLoop])
  | succ f ih =>
      intro f' cur bs acc r h hle
      rcases f' with _ | f2
      · omega
      simp only [decodeLoop] at h ⊢
      by_cases h1 : cur = 0 ∧ bs.length < 8 ∧ allOnes bs = true
      · rw [if_pos h1] at h ⊢
        exact h
      · rw [if_neg h1] at h ⊢
        by_cases h2 : (getNode t cur (lookupKey bs)).isLeaf = true
        · rw [if_pos h2] at h ⊢
          by_cases h3 : (getNode t cur (lookupKey bs)).ch = 256
          · rw [if_pos h3] at h ⊢
            exact h
          · rw [if_neg h3] at h ⊢
            by_cases h4 : bs.length < (getNode t cur (lookupKey bs)).bits
            · rw [if_pos h4] at h ⊢
              exact h
            · rw [if_neg h4] at h ⊢
              exact ih f2 0 _ _ r h (by omega)
        · rw [if_neg h2] at h ⊢
          by_cases h5 : bs.length < 8
          · rw [if_pos h5] at h ⊢
            exact h
          · rw [if_neg h5] at h ⊢
            exact ih f2 _ _ _ r h (by omega)

theorem decodeLoop_acc (t : List SuperHuffNode) :
    ∀ (f cur : Nat) (bs : List Bool) (acc : List Nat),
      decodeLoop t f cur bs acc =
        (decodeLoop t f cur bs []).map (fun r => (r.1, acc ++ r.2)) := by
  intro f
  induction f with
  | zero => intros; rfl
  | succ f ih =>
      intro cur bs acc
      simp only [decodeLoop]
      by_cases h1 : cur = 0 ∧ bs.length < 8 ∧ allOnes bs = true
      · rw [if_pos h1, if_pos h1]
        simp
      · rw [if_neg h1, if_neg h1]
        by_cases h2 : (getNode t cur (lookupKey bs)).isLeaf = true
        · rw [if_pos h2, if_pos h2]
          by_cases h3 : (getNode t cur (lookupKey bs)).ch = 256
          · rw [if_pos h3, if_pos h3]
            simp
          · rw [if_neg h3, if_neg h3]
            by_cases h4 : bs.length < (getNode t cur (lookupKey bs)).bits
            · rw [if_pos h4, if_pos h4]
              simp
            · rw [if_neg h4, if_neg h4]
              rw [ih 0 (bs.drop (getNode t cur (lookupKey bs)).bits)
                    (acc ++ [(getNode t cur (lookupKey bs)).ch]),
                  ih 0 (bs.drop (getNode t cur (lookupKey bs)).bits)
                    ([] ++ [(getNode t cur (lookupKey bs)).ch])]
              cases decodeLoop t f 0 (bs.drop (getNode t cur (lookupKey bs)).bits) [] <;>
                simp
        · rw [if_neg h2, if_neg h2]
          by_cases h5 : bs.length < 8
          · rw [if_pos h5, if_pos h5]
            simp
          · rw [if_neg h5, if_neg h5]
            rw [ih (getNode t cur (lookupKey bs)).superNode (bs.drop 8) acc]

theorem decodeLoop_total (t : List SuperHuffNode) (hb : boundedTree t = true) :
    ∀ (f cur : Nat) (bs : List Bool) (acc : List Nat),
      bs.length + 1 ≤ f → cur < t.length →
      ∃ r, decodeLoop t f cur bs acc = some r := by
  intro f
  induction f with
  | zero => intro cur bs acc h; omega
  | succ f ih =>
      intro cur bs acc hf hcur
      simp only [decodeLoop]
      by_cases h1 : cur = 0 ∧ bs.length < 8 ∧ allOnes bs = true
      · exact ⟨_, by rw [if_pos h1]⟩
      · rw [if_neg h1]
        have hspec := boundedTree_at hb hcur (lookupKey_lt bs)
        by_cases h2 : (getNode t cur (lookupKey bs)).isLeaf = true
        · rw [if_pos h2]
          by_cases h3 : (getNode t cur (lookupKey bs)).ch = 256
          · exact ⟨_, by rw [if_pos h3]⟩
          · rw [if_neg h3]
            by_cases h4 : bs.length < (getNode t cur (lookupKey bs)).bits
            · exact ⟨_, by rw [if_pos h4]⟩
            · rw [if_neg h4]
              have hbits : 1 ≤ (getNode t cur (lookupKey bs)).bits := by
                apply hspec.1
                simpa [HuffNode.isLeaf] using h2
              refine ih 0 (bs.drop (getNode t cur (lookupKey bs)).bits) _ ?_ ?_
              · simp only [List.length_drop]
                omega
              · omega
        · rw [if_neg h2]
          by_cases h5 : bs.length < 8
          · exact ⟨_, by rw [if_pos h5]⟩
          · rw [if_neg h5]
            have hsn : (getNode t cur (lookupKey bs)).superNode ≠ 0 := by
              simpa [HuffNode.isLeaf] using h2
            refine ih _ (bs.drop 8) _ ?_ (hspec.2 hsn)
            simp only [List.length_drop]
            omega

theorem walkCheck_gt8 {t : List SuperHuffNode} {cur code nbits ch : Nat}
    (h : 8 < nbits) :
    walkCheck t cur code nbits ch =
      (!(getNode t cur ((code >>> (nbits - 8)) % 256)).isLeaf &&
        walkCheck t (getNode t cur ((code >>> (nbits - 8)) % 256)).superNode
          code (nbits - 8) ch) := by
  obtain ⟨n, rfl⟩ : ∃ n, nbits = n + 9 := ⟨nbits - 9, by omega⟩
  exact rfl

theorem walkCheck_le8 {t : List SuperHuffNode} {cur code nbits ch : Nat}
    (h : nbits ≤ 8) :
    walkCheck t cur code nbits ch =
      ((List.range (2 ^ (8 - nbits))).all fun j =>
        getNode t cur ((code % 2 ^ nbits) * 2 ^ (8 - nbits) + j) ==
          ⟨ch, nbits, 0⟩) := by
  interval_cases nbits <;> exact rfl

theorem insertFrom_gt8 {t : List SuperHuffNode} {cur code nbits ch : Nat}
    (h : 8 < nbits) :
    insertFrom t cur code nbits ch =
      (if (getNode t cur ((code >>> (nbits - 8)) % 256)).superNode == 0 then
        insertFrom
          ((t.set cur ⟨fun k => if k = (code >>> (nbits - 8)) % 256 then
              ⟨0, 0, t.length⟩ else getNode t cur k⟩) ++ [emptySuper])
          t.length code (nbits - 8) ch
      else
        insertFrom t (getNode t cur ((code >>> (nbits - 8)) % 256)).superNode
          code (nbits - 8) ch) := by
  obtain ⟨n, rfl⟩ : ∃ n, nbits = n + 9 := ⟨nbits - 9, by omega⟩
  exact rfl

theorem insertFrom_le8 {t : List SuperHuffNode} {cur code nbits ch : Nat}
    (h : nbits ≤ 8) :
    insertFrom t cur code nbits ch =
      t.set cur (fillIndex (t.getD cur emptySuper) code nbits ch) := by
  interval_cases nbits <;> exact rfl

theorem codeBits_split {code nbits : Nat} (h : 8 < nbits) :
    natToBits code nbits =
      natToBits ((code >>> (nbits - 8)) % 256) 8 ++ natToBits code (nbits - 8) := by
  have hmod : code % 2 ^ nbits % 2 ^ (nbits - 8) = code % 2 ^ (nbits - 8) := by
    rw [Nat.mod_mod_of_dvd]
    exact Nat.pow_dvd_pow 2 (by omega)
  have ha : code % 2 ^ nbits / 2 ^ (nbits - 8) = (code >>> (nbits - 8)) % 256 := by
    rw [Nat.shiftRight_eq_div_pow]
    have h2 : (2:Nat) ^ nbits = 2 ^ (nbits - 8) * 2 ^ 8 := by
      rw [← Nat.pow_add]
      congr 1
      omega
    rw [h2, Nat.mod_mul_right_div_self]
    norm_num
  have hdm := Nat.div_add_mod (code % 2 ^ nbits) (2 ^ (nbits - 8))
  calc natToBits code nbits
      = natToBits (code % 2 ^ nbits) nbits := (natToBits_mod code nbits).symm
    _ = natToBits
          (2 ^ (nbits - 8) * ((code >>> (nbits - 8)) % 256) + code % 2 ^ (nbits - 8))
          (8 + (nbits - 8)) := by
        congr 1
        · rw [← ha, ← hmod]
          omega
        · omega
    _ = natToBits ((code >>> (nbits - 8)) % 256) 8 ++
          natToBits (code % 2 ^ (nbits - 8)) (nbits - 8) :=
        natToBits_append _ _ 8 (nbits - 8) (Nat.mod_lt _ (Nat.two_pow_pos _))
    _ = natToBits ((code >>> (nbits - 8)) % 256) 8 ++ natToBits code (nbits - 8) := by
        rw [natToBits_mod]

theorem treeMatches_at {t : List SuperHuffNode} {codes bitsT : Nat → Nat}
    (hm : treeMatches t codes bitsT = true) {i : Nat} (hi : i < 257) :
    walkCheck t 0 (codes i) (bitsT i) i = true := by
  simp only [treeMatches, List.all_eq_true, List.mem_range] at hm
  exact hm i hi

theorem lenOK_at {bitsT : Nat → Nat} (hl : lenOK bitsT = true) {i : Nat}
    (hi : i < 257) : 1 ≤ bitsT i := by
  simp only [lenOK, List.all_eq_true, List.mem_range, decide_eq_true_eq] at hl
  exact hl i hi

theorem padSafe_at {codes bitsT : Nat → Nat} (hp : padSafe codes bitsT = true)
    {i : Nat} (hi : i < 256) (hlt : bitsT i < 8) :
    codes i % 2 ^ bitsT i ≠ 2 ^ bitsT i - 1 := by
  simp only [padSafe, List.all_eq_true, List.mem_range, Bool.or_eq_true,
    decide_eq_true_eq, Bool.not_eq_true', beq_eq_false_iff_ne, ne_eq] at hp
  rcases hp i hi with h | h
  · omega
  · exact h

theorem walkCheck_leaf {t : List SuperHuffNode} {cur code nbits ch : Nat}
    (h8 : ¬ 8 < nbits) (hw : walkCheck t cur code nbits ch = true) {j : Nat}
    (hj : j < 2 ^ (8 - nbits)) :
    getNode t cur (code % 2 ^ nbits * 2 ^ (8 - nbits) + j) = ⟨ch, nbits, 0⟩ := by
  rw [walkCheck_le8 (by omega)] at hw
  simp only [List.all_eq_true, List.mem_range, beq_iff_eq] at hw
  exact hw j hj

theorem walk_decode (t : List SuperHuffNode) :
    ∀ (nbits cur code ch : Nat) (rest : List Bool) (acc : List Nat) (f : Nat),
      walkCheck t cur code nbits ch = true → 1 ≤ nbits → ch ≠ 256 →
      nbits + rest.length + 1 ≤ f →
      (cur = 0 → ¬(nbits + rest.length < 8 ∧
        allOnes (natToBits code nbits ++ rest) = true)) →
      ∃ f', rest.length + 1 ≤ f' ∧
        decodeLoop t f cur (natToBits code nbits ++ rest) acc =
          decodeLoop t f' 0 rest (acc ++ [ch]) := by
  intro nbits
  induction nbits using Nat.strong_induction_on with
  | _ nbits IH =>
    intro cur code ch rest acc f hwalk h1 hch hf hpad
    rcases f with _ | f
    · omega
    have hbslen : (natToBits code nbits ++ rest).length = nbits + rest.length := by
      rw [List.length_append, natToBits_length]
    have hcond : ¬(cur = 0 ∧ (natToBits code nbits ++ rest).length < 8 ∧
        allOnes (natToBits code nbits ++ rest) = true) := by
      rintro ⟨hc0, hlt, hones⟩
      rw [hbslen] at hlt
      exact hpad hc0 ⟨hlt, hones⟩
    by_cases h8 : 8 < nbits
    · -- more than 8 bits of the code remain: the window is a branch
      have hsplit := @codeBits_split code nbits h8
      have hbs : natToBits code nbits ++ rest =
          natToBits ((code >>> (nbits - 8)) % 256) 8 ++
            (natToBits code (nbits - 8) ++ rest) := by
        rw [hsplit, List.append_assoc]
      have hlen8 : ¬ (natToBits code nbits ++ rest).length < 8 := by
        rw [hbslen]
        omega
      have hkey : lookupKey (natToBits code nbits ++ rest) =
          (code >>> (nbits - 8)) % 256 := by
        rw [lookupKey_long (by rw [hbslen]; omega), hbs,
          List.take_left' (natToBits_length _ _), bitsToNat_natToBits,
          show (2:Nat) ^ 8 = 256 by norm_num]
        exact Nat.mod_mod_of_dvd _ dvd_rfl
      rw [walkCheck_gt8 h8] at hwalk
      rw [Bool.and_eq_true, Bool.not_eq_true'] at hwalk
      obtain ⟨hnl, hwalk2⟩ := hwalk
      have hsn : (getNode t cur ((code >>> (nbits - 8)) % 256)).superNode ≠ 0 := by
        simpa [HuffNode.isLeaf] using hnl
      simp only [decodeLoop]
      rw [if_neg hcond, hkey]
      rw [if_neg (by simp [HuffNode.isLeaf] at hnl ⊢; exact hnl)]
      rw [if_neg hlen8]
      have hdrop : (natToBits code nbits ++ rest).drop 8 =
          natToBits code (nbits - 8) ++ rest := by
        rw [hbs, List.drop_left' (natToBits_length _ _)]
      rw [hdrop]
      exact IH (nbits - 8) (by omega) _ code ch rest acc f hwalk2 (by omega) hch
        (by omega) (fun hc0 => absurd hc0 hsn)
    · -- at most 8 bits remain: the window is the leaf fan-out
      have hnle : nbits ≤ 8 := by omega
      have htake : (natToBits code nbits ++ rest).take nbits = natToBits code nbits :=
        List.take_left' (natToBits_length _ _)
      have hdiv : lookupKey (natToBits code nbits ++ rest) / 2 ^ (8 - nbits) =
          code % 2 ^ nbits := by
        rw [lookupKey_take _ hnle (by rw [hbslen]; omega), htake, bitsToNat_natToBits]
      simp only [decodeLoop]
      rw [if_neg hcond]
      set k := lookupKey (natToBits code nbits ++ rest) with hk
      have hjlt : k % 2 ^ (8 - nbits) < 2 ^ (8 - nbits) :=
        Nat.mod_lt _ (Nat.two_pow_pos _)
      have hkeq : k = code % 2 ^ nbits * 2 ^ (8 - nbits) + k % 2 ^ (8 - nbits) := by
        have hdm := Nat.div_add_mod k (2 ^ (8 - nbits))
        rw [hdiv, Nat.mul_comm] at hdm
        omega
      have hnode : getNode t cur k = ⟨ch, nbits, 0⟩ := by
        rw [hkeq]
        exact walkCheck_leaf h8 hwalk hjlt
      rw [hnode]
      rw [if_pos (show HuffNode.isLeaf ⟨ch, nbits, 0⟩ = true from rfl)]
      rw [if_neg (show ¬ (HuffNode.ch ⟨ch, nbits, 0⟩ = 256) from hch)]
      rw [if_neg (show ¬ ((natToBits code nbits ++ rest).length <
            HuffNode.bits ⟨ch, nbits, 0⟩) by rw [hbslen]; simp)]
      have hdropn : (natToBits code nbits ++ rest).drop
          (HuffNode.bits ⟨ch, nbits, 0⟩) = rest :=
        List.drop_left' (natToBits_length _ _)
      rw [hdropn]
      exact ⟨f, by omega, rfl⟩

theorem decode_complete (t : List SuperHuffNode) (codes bitsT : Nat → Nat)
    (hm : treeMatches t codes bitsT = true) (hp : padSafe codes bitsT = true)
    (hl : lenOK bitsT = true) :
    ∀ (syms : List Nat) (rem : List Bool) (acc : List Nat) (f : Nat),
      (∀ c ∈ syms, c ≤ 255) → allOnes rem = true → rem.length < 8 →
      (encodeBits codes bitsT syms ++ rem).length + 1 ≤ f →
      decodeLoop t f 0 (encodeBits codes bitsT syms ++ rem) acc =
        some (true, acc ++ syms) := by
  intro syms
  induction syms with
  | nil =>
      intro rem acc f _ hones hlen hf
      rcases f with _ | f
      · simp at hf
      simp only [encodeBits, List.map_nil, List.flatten_nil, List.nil_append,
        decodeLoop]
      rw [if_pos ⟨trivial, hlen, hones⟩, List.append_nil]
  | cons c syms ih =>
      intro rem acc f hsy hones hlen hf
      have hc : c ≤ 255 := hsy c (by simp)
      have hwalk : walkCheck t 0 (codes c) (bitsT c) c = true :=
        treeMatches_at hm (by omega)
      have h1 : 1 ≤ bitsT c := lenOK_at hl (by omega)
      have hbs : encodeBits codes bitsT (c :: syms) ++ rem =
          natToBits (codes c) (bitsT c) ++ (encodeBits codes bitsT syms ++ rem) := by
        rw [encodeBits_cons, List.append_assoc]
        rfl
      have hpadH : (0:Nat) = 0 → ¬(bitsT c + (encodeBits codes bitsT syms ++ rem).length < 8 ∧
          allOnes (natToBits (codes c) (bitsT c) ++
            (encodeBits codes bitsT syms ++ rem)) = true) := by
        rintro - ⟨hlt, ho⟩
        rw [allOnes_append, Bool.and_eq_true] at ho
        have hval : bitsToNat (natToBits (codes c) (bitsT c)) =
            2 ^ (natToBits (codes c) (bitsT c)).length - 1 := bitsToNat_allOnes ho.1
        rw [bitsToNat_natToBits, natToBits_length] at hval
        exact padSafe_at hp (by omega) (by omega) hval
      have hflen : (encodeBits codes bitsT (c :: syms) ++ rem).length =
          bitsT c + (encodeBits codes bitsT syms ++ rem).length := by
        rw [hbs, List.length_append, natToBits_length]
      obtain ⟨f2, hf2, heq⟩ := walk_decode t (bitsT c) 0 (codes c) c
        (encodeBits codes bitsT syms ++ rem) acc f hwalk h1 (by omega)
        (by rw [hflen] at hf; omega) hpadH
      rw [hbs, heq, ih rem (acc ++ [c]) f2 (fun x hx => hsy x (by simp [hx])) hones
        hlen hf2]
      simp

theorem faithfulWith_len {t : List SuperHuffNode} {codes bitsT : Nat → Nat}
    {pfx : Nat → Nat × Nat} (hf : faithfulWith t codes bitsT pfx = true) :
    1 ≤ t.length := by
  simp only [faithfulWith, Bool.and_eq_true, decide_eq_true_eq] at hf
  exact hf.1.1

theorem faithfulWith_root {t : List SuperHuffNode} {codes bitsT : Nat → Nat}
    {pfx : Nat → Nat × Nat} (hf : faithfulWith t codes bitsT pfx = true) :
    pfx 0 = (0, 0) := by
  simp only [faithfulWith, Bool.and_eq_true, decide_eq_true_eq, beq_iff_eq] at hf
  exact hf.1.2

theorem faithfulWith_at {t : List SuperHuffNode} {codes bitsT : Nat → Nat}
    {pfx : Nat → Nat × Nat} (hf : faithfulWith t codes bitsT pfx = true)
    {s k : Nat} (hs : s < t.length) (hk : k < 256) :
    nodeFaithful codes bitsT pfx t.length s k (getNode t s k) = true := by
  simp only [faithfulWith, Bool.and_eq_true, List.all_eq_true, List.mem_range] at hf
  exact hf.2 s hs k hk

theorem nodeFaithful_leaf {codes bitsT : Nat → Nat} {pfx : Nat → Nat × Nat}
    {len s k : Nat} {n : HuffNode}
    (h : nodeFaithful codes bitsT pfx len s k n = true) (hl : n.superNode = 0) :
    1 ≤ n.bits ∧ n.bits ≤ 8 ∧ n.ch ≤ 256 ∧ bitsT n.ch = (pfx s).2 + n.bits ∧
    codes n.ch % 2 ^ bitsT n.ch = (pfx s).1 * 2 ^ n.bits + k / 2 ^ (8 - n.bits) := by
  rw [nodeFaithful, if_pos (by simp [hl])] at h
  simp only [Bool.and_eq_true, decide_eq_true_eq, beq_iff_eq] at h
  tauto

theorem nodeFaithful_branch {codes bitsT : Nat → Nat} {pfx : Nat → Nat × Nat}
    {len s k : Nat} {n : HuffNode}
    (h : nodeFaithful codes bitsT pfx len s k n = true) (hl : n.superNode ≠ 0) :
    n.superNode < len ∧ pfx n.superNode = ((pfx s).1 * 256 + k, (pfx s).2 + 8) := by
  rw [nodeFaithful, if_neg (by simp [hl])] at h
  simp only [Bool.and_eq_true, decide_eq_true_eq, beq_iff_eq] at h
  tauto

theorem div_two_pow_lt {k b : Nat} (hk : k < 256) (hb : b ≤ 8) :
    k / 2 ^ (8 - b) < 2 ^ b := by
  rw [Nat.div_lt_iff_lt_mul (Nat.two_pow_pos _), ← Nat.pow_add]
  have h8 : b + (8 - b) = 8 := by omega
  rw [h8]
  exact hk

theorem decodeLoop_no_eos (t : List SuperHuffNode) :
    ∀ (f cur : Nat) (bs : List Bool) (acc out : List Nat) (b : Bool),
      decodeLoop t f cur bs acc = some (b, out) → 256 ∉ acc → 256 ∉ out := by
  intro f
  induction f with
  | zero => intro cur bs acc out b h; exact absurd h (by simp [decodeLoop])
  | succ f ih =>
      intro cur bs acc out b h hacc
      simp only [decodeLoop] at h
      by_cases h1 : cur = 0 ∧ bs.length < 8 ∧ allOnes bs = true
      · rw [if_pos h1] at h
        obtain ⟨-, h2⟩ := Prod.mk.injEq .. ▸ Option.some.inj h
        exact h2 ▸ hacc
      · rw [if_neg h1] at h
        by_cases h2 : (getNode t cur (lookupKey bs)).isLeaf = true
        · rw [if_pos h2] at h
          by_cases h3 : (getNode t cur (lookupKey bs)).ch = 256
          · rw [if_pos h3] at h
            obtain ⟨-, h4⟩ := Prod.mk.injEq .. ▸ Option.some.inj h
            exact h4 ▸ hacc
          · rw [if_neg h3] at h
            by_cases h4 : bs.length < (getNode t cur (lookupKey bs)).bits
            · rw [if_pos h4] at h
              obtain ⟨-, h5⟩ := Prod.mk.injEq .. ▸ Option.some.inj h
              exact h5 ▸ hacc
            · rw [if_neg h4] at h
              refine ih 0 _ _ out b h ?_
              intro hmem
              rcases List.mem_append.mp hmem with hmem | hmem
              · exact hacc hmem
              · simp only [List.mem_singleton] at hmem
                exact h3 hmem.symm
        · rw [if_neg h2] at h
          by_cases h5 : bs.length < 8
          · rw [if_pos h5] at h
            obtain ⟨-, h6⟩ := Prod.mk.injEq .. ▸ Option.some.inj h
            exact h6 ▸ hacc
          · rw [if_neg h5] at h
            exact ih _ _ _ out b h hacc

theorem decode_sound (t : List SuperHuffNode) (codes bitsT : Nat → Nat)
    (pfx : Nat → Nat × Nat) (hf : faithfulWith t codes bitsT pfx = true) :
    ∀ (f cur : Nat) (bs : List Bool) (acc out : List Nat),
      cur < t.length →
      decodeLoop t f cur bs acc = some (true, out) →
      ∃ syms rem, out = acc ++ syms ∧ (∀ c ∈ syms, c ≤ 255) ∧
        pfxBits pfx cur ++ bs = encodeBits codes bitsT syms ++ rem ∧
        allOnes rem = true ∧ rem.length < 8 := by
  intro f
  induction f with
  | zero => intro cur bs acc out hcur h; exact absurd h (by simp [decodeLoop])
  | succ f ih =>
      intro cur bs acc out hcur h
      simp only [decodeLoop] at h
      by_cases h1 : cur = 0 ∧ bs.length < 8 ∧ allOnes bs = true
      · rw [if_pos h1] at h
        obtain ⟨-, hout⟩ := Prod.mk.injEq .. ▸ Option.some.inj h
        refine ⟨[], bs, by simp [hout], by simp, ?_, h1.2.2, h1.2.1⟩
        rw [h1.1, pfxBits, faithfulWith_root hf]
        simp [encodeBits, natToBits]
      · rw [if_neg h1] at h
        have hkey := lookupKey_lt bs
        have hnf := faithfulWith_at hf hcur hkey
        by_cases h2 : (getNode t cur (lookupKey bs)).isLeaf = true
        · rw [if_pos h2] at h
          by_cases h3 : (getNode t cur (lookupKey bs)).ch = 256
          · rw [if_pos h3] at h
            exact absurd (congrArg (·.1) (Option.some.inj h)) (by simp)
          · rw [if_neg h3] at h
            by_cases h4 : bs.length < (getNode t cur (lookupKey bs)).bits
            · rw [if_pos h4] at h
              exact absurd (congrArg (·.1) (Option.some.inj h)) (by simp)
            · rw [if_neg h4] at h
              have hsn : (getNode t cur (lookupKey bs)).superNode = 0 := by
                simpa [HuffNode.isLeaf] using h2
              obtain ⟨hb1, hb8, hch, hlen, hcode⟩ := nodeFaithful_leaf hnf hsn
              obtain ⟨syms, rem, hout, hsy, heq, hones, hrlen⟩ :=
                ih 0 (bs.drop (getNode t cur (lookupKey bs)).bits) _ out
                  (by have := faithfulWith_len hf; omega) h
              have hble : (getNode t cur (lookupKey bs)).bits ≤ bs.length :=
                Nat.not_lt.mp h4
              have hl2 : (bs.take (getNode t cur (lookupKey bs)).bits).length =
                  (getNode t cur (lookupKey bs)).bits := by
                simp only [List.length_take]
                omega
              have htk : lookupKey bs / 2 ^ (8 - (getNode t cur (lookupKey bs)).bits) =
                  bitsToNat (bs.take (getNode t cur (lookupKey bs)).bits) :=
                lookupKey_take bs hb8 hble
              have hnb : natToBits
                  (lookupKey bs / 2 ^ (8 - (getNode t cur (lookupKey bs)).bits))
                  (getNode t cur (lookupKey bs)).bits =
                  bs.take (getNode t cur (lookupKey bs)).bits := by
                rw [htk]
                have hx := natToBits_bitsToNat
                  (bs.take (getNode t cur (lookupKey bs)).bits)
                rwa [hl2] at hx
              have hcb : codeBits codes bitsT (getNode t cur (lookupKey bs)).ch =
                  pfxBits pfx cur ++ bs.take (getNode t cur (lookupKey bs)).bits := by
                rw [codeBits, ← natToBits_mod, hcode, hlen, Nat.mul_comm,
                  natToBits_append _ _ (pfx cur).2 _
                    (div_two_pow_lt (lookupKey_lt bs) hb8),
                  hnb, pfxBits]
              have hroot : pfxBits pfx 0 = [] := by
                rw [pfxBits, faithfulWith_root hf]
                exact rfl
              rw [hroot, List.nil_append] at heq
              refine ⟨(getNode t cur (lookupKey bs)).ch :: syms, rem, ?_, ?_, ?_,
                hones, hrlen⟩
              · rw [hout]
                simp
              · intro x hx
                rcases List.mem_cons.mp hx with hx | hx
                · omega
                · exact hsy x hx
              · rw [encodeBits_cons, List.append_assoc, ← heq, hcb,
                  List.append_assoc, List.take_append_drop]
        · rw [if_neg h2] at h
          by_cases h5 : bs.length < 8
          · rw [if_pos h5] at h
            exact absurd (congrArg (·.1) (Option.some.inj h)) (by simp)
          · rw [if_neg h5] at h
            have hsn : (getNode t cur (lookupKey bs)).superNode ≠ 0 := by
              simpa [HuffNode.isLeaf] using h2
            obtain ⟨hlt, hpfx⟩ := nodeFaithful_branch hnf hsn
            obtain ⟨syms, rem, hout, hsy, heq, hones, hrlen⟩ :=
              ih _ (bs.drop 8) acc out hlt h
            refine ⟨syms, rem, hout, hsy, ?_, hones, hrlen⟩
            have h8le : 8 ≤ bs.length := Nat.not_lt.mp h5
            have hl2 : (bs.take 8).length = 8 := by
              simp only [List.length_take]
              omega
            have hk8 : natToBits (lookupKey bs) 8 = bs.take 8 := by
              rw [lookupKey_long h8le]
              have hx := natToBits_bitsToNat (bs.take 8)
              rwa [hl2] at hx
            have hkey2 : lookupKey bs < 2 ^ 8 := by
              have := lookupKey_lt bs
              norm_num
              omega
            have hpb : pfxBits pfx ((getNode t cur (lookupKey bs)).superNode) =
                pfxBits pfx cur ++ bs.take 8 := by
              simp only [pfxBits, hpfx]
              rw [show (pfx cur).1 * 256 = 2 ^ 8 * (pfx cur).1 by ring,
                natToBits_append _ _ (pfx cur).2 8 hkey2, hk8]
            rw [hpb, List.append_assoc, List.take_append_drop] at heq
            exact heq

theorem fillIndex_index (sn : SuperHuffNode) (code bits ch k : Nat) :
    (fillIndex sn code bits ch).index k =
      if k / 2 ^ (8 - bits) = code % 2 ^ bits then ⟨ch, bits, 0⟩
      else sn.index k := rfl

theorem linkNode_index (t : List SuperHuffNode) (cur key idx k : Nat) :
    (SuperHuffNode.mk fun k2 =>
        if k2 = key then ⟨0, 0, idx⟩ else getNode t cur k2).index k =
      if k = key then ⟨0, 0, idx⟩ else getNode t cur k := rfl

theorem getNode_set_self {t : List SuperHuffNode} {cur : Nat}
    (h : cur < t.length) (sn : SuperHuffNode) (k : Nat) :
    getNode (t.set cur sn) cur k = sn.index k := by
  rw [getNode, List.getD_eq_getElem _ _ (by rw [List.length_set]; exact h),
    List.getElem_set_self]

theorem getNode_set_ne {t : List SuperHuffNode} {cur s : Nat} (h : cur ≠ s)
    (sn : SuperHuffNode) (k : Nat) :
    getNode (t.set cur sn) s k = getNode t s k := by
  rw [getNode, getNode, List.getD_eq_getElem?_getD, List.getD_eq_getElem?_getD,
    List.getElem?_set_ne h]

theorem getNode_append_lt {t t2 : List SuperHuffNode} {s : Nat}
    (h : s < t.length) (k : Nat) :
    getNode (t ++ t2) s k = getNode t s k := by
  rw [getNode, getNode, List.getD_eq_getElem?_getD, List.getD_eq_getElem?_getD,
    List.getElem?_append, if_pos h]

theorem getNode_append_self {t : List SuperHuffNode} (sn : SuperHuffNode)
    (k : Nat) : getNode (t ++ [sn]) t.length k = sn.index k := by
  rw [getNode, List.getD_eq_getElem?_getD,
    List.getElem?_append_right (Nat.le_refl _), Nat.sub_self]
  rfl

theorem getNode_append_one {t : List SuperHuffNode} (sn : SuperHuffNode)
    {s : Nat} (h : s = t.length) (k : Nat) :
    getNode (t ++ [sn]) s k = sn.index k := by
  subst h
  exact getNode_append_self sn k

theorem getNode_oob {t : List SuperHuffNode} {s : Nat} (h : t.length ≤ s)
    (k : Nat) : getNode t s k = {} := by
  rw [getNode, List.getD_eq_getElem?_getD, List.getElem?_eq_none h]
  rfl

theorem insertFrom_good :
    ∀ (nbits : Nat) (t : List SuperHuffNode) (cur code ch : Nat),
      1 ≤ t.length → goodNodes t →
      1 ≤ (insertFrom t cur code nbits ch).length ∧
      t.length ≤ (insertFrom t cur code nbits ch).length ∧
      goodNodes (insertFrom t cur code nbits ch) := by
  intro nbits
  induction nbits using Nat.strong_induction_on with
  | _ nbits IH =>
    intro t cur code ch hlen hgood
    by_cases h8 : 8 < nbits
    · rw [insertFrom_gt8 h8]
      by_cases hz : (getNode t cur ((code >>> (nbits - 8)) % 256)).superNode == 0
      · rw [if_pos hz]
        have hsetlen : (t.set cur
            (SuperHuffNode.mk fun k2 =>
              if k2 = (code >>> (nbits - 8)) % 256 then ⟨0, 0, t.length⟩
              else getNode t cur k2)).length = t.length := List.length_set ..
        have hlen2 : ((t.set cur
            (SuperHuffNode.mk fun k2 =>
              if k2 = (code >>> (nbits - 8)) % 256 then ⟨0, 0, t.length⟩
              else getNode t cur k2)) ++ [emptySuper]).length = t.length + 1 := by
          rw [List.length_append, hsetlen]
          rfl
        have hgood2 : goodNodes ((t.set cur
            (SuperHuffNode.mk fun k2 =>
              if k2 = (code >>> (nbits - 8)) % 256 then ⟨0, 0, t.length⟩
              else getNode t cur k2)) ++ [emptySuper]) := by
          intro s k
          by_cases hs : s < t.length
          · rw [getNode_append_lt (by rw [hsetlen]; exact hs)]
            by_cases hsc : cur = s
            · subst hsc
              rw [getNode_set_self hs, linkNode_index]
              by_cases hk : k = (code >>> (nbits - 8)) % 256
              · rw [if_pos hk]
                right
                refine ⟨hlen, ?_⟩
                rw [hlen2]
                show t.length < t.length + 1
                omega
              · rw [if_neg hk]
                rcases hgood cur k with h | h
                · exact Or.inl h
                · refine Or.inr ⟨h.1, ?_⟩
                  rw [hlen2]
                  omega
            · rw [getNode_set_ne hsc]
              rcases hgood s k with h | h
              · exact Or.inl h
              · refine Or.inr ⟨h.1, ?_⟩
                rw [hlen2]
                omega
          · by_cases hs2 : s = t.length
            · left
              rw [getNode_append_one _ (by rw [hsetlen]; exact hs2)]
              rfl
            · left
              rw [getNode_oob (by rw [hlen2]; omega)]
        obtain ⟨g1, g2, g3⟩ := IH (nbits - 8) (by omega) _ t.length code ch
          (by omega) hgood2
        refine ⟨g1, ?_, g3⟩
        rw [hlen2] at g2
        omega
      · rw [if_neg hz]
        exact IH (nbits - 8) (by omega) t
          (getNode t cur ((code >>> (nbits - 8)) % 256)).superNode code ch
          hlen hgood
    · rw [insertFrom_le8 (by omega)]
      refine ⟨by rw [List.length_set]; exact hlen, by rw [List.length_set], ?_⟩
      intro s k
      rw [List.length_set]
      by_cases hs : s < t.length
      · by_cases hsc : cur = s
        · subst hsc
          rw [getNode_set_self hs, fillIndex_index]
          by_cases hk : k / 2 ^ (8 - nbits) = code % 2 ^ nbits
          · rw [if_pos hk]
            left
            rfl
          · rw [if_neg hk]
            have : (t.getD cur emptySuper).index k = getNode t cur k := rfl
            rw [this]
            exact hgood cur k
        · rw [getNode_set_ne hsc]
          exact hgood s k
      · left
        rw [getNode_oob (by rw [List.length_set]; omega)]

theorem goodNodes_init : goodNodes [emptySuper] := by
  intro s k
  left
  rcases s with _ | s
  · rfl
  · rw [getNode_oob (by simp)]

theorem foldl_insertFrom_good (codes bitsT : Nat → Nat) :
    ∀ (l : List Nat) (t : List SuperHuffNode), 1 ≤ t.length → goodNodes t →
      1 ≤ (l.foldl (fun t2 i => insertFrom t2 0 (codes i) (bitsT i) i) t).length ∧
      goodNodes (l.foldl (fun t2 i => insertFrom t2 0 (codes i) (bitsT i) i) t) := by
  intro l
  induction l with
  | nil => intro t h1 h2; exact ⟨h1, h2⟩
  | cons i l ih =>
      intro t h1 h2
      simp only [List.foldl_cons]
      obtain ⟨g1, g2, g3⟩ := insertFrom_good (bitsT i) t 0 (codes i) i h1 h2
      exact ih _ g1 g3

theorem buildTree_good (codes bitsT : Nat → Nat) :
    1 ≤ (buildTree codes bitsT).length ∧ goodNodes (buildTree codes bitsT) := by
  rw [buildTree]
  exact foldl_insertFrom_good codes bitsT (List.range 257) [emptySuper]
    (by simp) goodNodes_init

theorem insertFrom_fill (t : List SuperHuffNode) (cur code r ch : Nat)
    (hr : r ≤ 8) (hcur : cur < t.length) (k : Nat) :
    getNode (insertFrom t cur code r ch) cur k =
      (if k / 2 ^ (8 - r) = code % 2 ^ r then ⟨ch, r, 0⟩
       else getNode t cur k) := by
  rw [insertFrom_le8 hr, getNode_set_self hcur, fillIndex_index]
  rfl

theorem fill_range_card (q m : Nat) (hm : 0 < m) (hq : (q + 1) * m ≤ 256) :
    ((Finset.range 256).filter (fun k => k / m = q)).card = m := by
  have hexp : (q + 1) * m = q * m + m := by ring
  have hset : (Finset.range 256).filter (fun k => k / m = q) =
      Finset.Ico (q * m) ((q + 1) * m) := by
    ext k
    simp only [Finset.mem_filter, Finset.mem_range, Finset.mem_Ico]
    constructor
    · rintro ⟨-, hdiv⟩
      have hdm := Nat.div_add_mod k m
      have hmod := Nat.mod_lt k hm
      rw [hdiv, Nat.mul_comm] at hdm
      omega
    · rintro ⟨h1, h2⟩
      refine ⟨by omega, Nat.div_eq_of_lt_le h1 h2⟩
  rw [hset, Nat.card_Ico]
  omega

theorem padBits_lt (n : Nat) : padBits n < 8 := by
  unfold padBits
  omega

theorem bytesToBits_encode (codes bitsT : Nat → Nat) (l : List Nat) :
    bytesToBits (encode codes bitsT l) =
      encodeBits codes bitsT l ++
        List.replicate (padBits (encodeBits codes bitsT l).length) true := by
  simp only [encode]
  apply bytesToBits_bitsToBytes
  simp only [List.length_append, List.length_replicate, padBits]
  omega

theorem encode_length8 (codes bitsT : Nat → Nat) (l : List Nat) :
    8 * (encode codes bitsT l).length =
      (encodeBits codes bitsT l).length +
        padBits (encodeBits codes bitsT l).length := by
  rw [← bytesToBits_length, bytesToBits_encode, List.length_append,
    List.length_replicate]

theorem decode_success_unique (t : List SuperHuffNode) (codes bitsT : Nat → Nat)
    (pfx : Nat → Nat × Nat) (hf : faithfulWith t codes bitsT pfx = true)
    (buf : List Nat) (l : List Nat)
    (h : decode t buf [] = some (true, l)) :
    ∃ rem, bytesToBits buf = encodeBits codes bitsT l ++ rem ∧
      allOnes rem = true ∧ rem.length < 8 := by
  rw [decode] at h
  obtain ⟨syms, rem, hout, hsy, heq, hones, hrlen⟩ :=
    decode_sound t codes bitsT pfx hf _ 0 _ [] l
      (by have := faithfulWith_len hf; omega) h
  have hroot : pfxBits pfx 0 = [] := by
    rw [pfxBits, faithfulWith_root hf]
    exact rfl
  rw [hroot, List.nil_append] at heq
  simp only [List.nil_append] at hout
  rw [← hout] at heq
  exact ⟨rem, heq, hones, hrlen⟩

set_option maxRecDepth 400000

/-- Claim C1: for every literal composed only of the 256 codable byte
values, encoding the literal against a tree built from a well-formed
standard table and then decoding the produced buffer returns success and
appends exactly the original literal to the output accumulator. -/
theorem c1_round_trip (codes bitsT : Nat → Nat)
    (hm : treeMatches (buildTree codes bitsT) codes bitsT = true)
    (hp : padSafe codes bitsT = true) (hl : lenOK bitsT = true)
    (l : List Nat) (hc : ∀ c ∈ l, c ≤ 255) :
    decode (buildTree codes bitsT) (encode codes bitsT l) [] =
      some (true, l) := by
  rw [decode]
  have hfl : (encodeBits codes bitsT l ++
      List.replicate (padBits (encodeBits codes bitsT l).length) true).length +
        1 ≤ 8 * (encode codes bitsT l).length + 1 := by
    rw [← bytesToBits_encode, bytesToBits_length]
  rw [bytesToBits_encode]
  have h := decode_complete (buildTree codes bitsT) codes bitsT hm hp hl l
    (List.replicate (padBits (encodeBits codes bitsT l).length) true) []
    (8 * (encode codes bitsT l).length + 1) hc (allOnes_replicate _)
    (by rw [List.length_replicate]; exact padBits_lt _) hfl
  simpa using h

/-- Witness for C1 at the model table and the literal `[104, 105]`. -/
theorem c1_round_trip_witness :
    decode (buildTree wCodes wBits) (encode wCodes wBits [104, 105]) [] =
      some (true, [104, 105]) :=
  c1_round_trip wCodes wBits (by decide) (by decide) (by decide) [104, 105]
    (by decide)

/-- Claim C2: decode always returns synchronously, the EOS pseudo-symbol
256 is never appended to the accumulator, and the result is `true` exactly
when the buffer's real bits are a concatenation of byte codes followed by
nothing but valid all-1s padding of fewer than 8 bits; every other
situation (a branch lookup starved of its 8 real bits, a leaf whose bit
count overruns the real bits beyond the all-1s pad, a decoded EOS)
yields `false`. -/
theorem c2_success_iff (t : List SuperHuffNode) (codes bitsT : Nat → Nat)
    (pfx : Nat → Nat × Nat) (hf : faithfulWith t codes bitsT pfx = true)
    (hm : treeMatches t codes bitsT = true) (hp : padSafe codes bitsT = true)
    (hl : lenOK bitsT = true) (hb : boundedTree t = true) (buf : List Nat) :
    ∃ b out, decode t buf [] = some (b, out) ∧ 256 ∉ out ∧
      (b = true ↔ ∃ rem, bytesToBits buf = encodeBits codes bitsT out ++ rem ∧
        allOnes rem = true ∧ rem.length < 8 ∧ ∀ c ∈ out, c ≤ 255) := by
  obtain ⟨⟨b, out⟩, hr⟩ := decodeLoop_total t hb (8 * buf.length + 1) 0
    (bytesToBits buf) [] (by rw [bytesToBits_length])
    (by have := boundedTree_len hb; omega)
  refine ⟨b, out, hr, decodeLoop_no_eos t _ 0 _ [] out b hr (by simp), ?_⟩
  constructor
  · rintro rfl
    obtain ⟨syms, rem, hout, hsy, heq, hones, hrlen⟩ := decode_sound t codes
      bitsT pfx hf _ 0 _ [] out (by have := faithfulWith_len hf; omega) hr
    have hroot : pfxBits pfx 0 = [] := by
      rw [pfxBits, faithfulWith_root hf]
      exact rfl
    rw [hroot, List.nil_append] at heq
    simp only [List.nil_append] at hout
    rw [← hout] at heq hsy
    exact ⟨rem, heq, hones, hrlen, hsy⟩
  · rintro ⟨rem, heq, hones, hrlen, hsy⟩
    have hc := decode_complete t codes bitsT hm hp hl out rem []
      (8 * buf.length + 1) hsy hones hrlen
      (by rw [← heq, bytesToBits_length])
    rw [← heq] at hc
    rw [hr] at hc
    simp only [List.nil_append] at hc
    exact congrArg (·.1) (Option.some.inj hc)

/-- Witness for C2 at the model table and the buffer `[104]`. -/
theorem c2_success_iff_witness :
    ∃ b out, decode wTree [104] [] = some (b, out) ∧ 256 ∉ out ∧
      (b = true ↔ ∃ rem, bytesToBits [104] = encodeBits wCodes wBits out ++ rem ∧
        allOnes rem = true ∧ rem.length < 8 ∧ ∀ c ∈ out, c ≤ 255) :=
  c2_success_iff wTree wCodes wBits wPfx (by decide) (by decide) (by decide)
    (by decide) (by decide) [104]

/-- Claim C3: `getEncodeSize` equals the sum of the per-byte code bit
lengths rounded up to whole bytes, equals the number of bytes `encode`
writes, and is 0 on the empty literal. -/
theorem c3_encode_size_agrees (codes bitsT : Nat → Nat) (l : List Nat) :
    getEncodeSize bitsT l = ((encodeBits codes bitsT l).length + 7) / 8 ∧
    getEncodeSize bitsT l = (encode codes bitsT l).length ∧
    getEncodeSize bitsT [] = 0 := by
  have h1 : getEncodeSize bitsT l =
      ((encodeBits codes bitsT l).length + 7) / 8 := by
    rw [getEncodeSize, encodeBits_length]
  refine ⟨h1, ?_, by simp [getEncodeSize]⟩
  rw [h1]
  simp only [encode]
  rw [bitsToBytes_length, List.length_append, List.length_replicate]
  unfold padBits
  omega

/-- Claim C4: encode is total on every literal (no failure path), packs the
codes most-significant bit first and pads the final partial byte with
1-bits to the byte boundary; the byte count it reports accounts for all
code bits plus the pad. -/
theorem c4_encode_total (codes bitsT : Nat → Nat) (l : List Nat) :
    ∃ p, p < 8 ∧
      bytesToBits (encode codes bitsT l) =
        encodeBits codes bitsT l ++ List.replicate p true ∧
      8 * (encode codes bitsT l).length =
        (encodeBits codes bitsT l).length + p :=
  ⟨padBits (encodeBits codes bitsT l).length, padBits_lt _,
    bytesToBits_encode codes bitsT l, encode_length8 codes bitsT l⟩

/-- Claim C5: on a well-formed tree every decode call terminates with a
synchronous success or failure result; each loop step consumes at least one
bit, so fuel exceeding the bit count is never exhausted. -/
theorem c5_decode_terminates (t : List SuperHuffNode)
    (hb : boundedTree t = true) (buf literal : List Nat) :
    ∃ r, decode t buf literal = some r :=
  decodeLoop_total t hb (8 * buf.length + 1) 0 (bytesToBits buf) literal
    (by rw [bytesToBits_length])
    (by have := boundedTree_len hb; omega)

/-- Witness for C5 at the model table. -/
theorem c5_decode_terminates_witness :
    ∃ r, decode wTree [255] [] = some r :=
  c5_decode_terminates wTree (by decide) [255] []

/-- Counterexample to C6 as stated: for the literal `[255]` the valid
encoding is `[255, 127]`, whose bits 9 to 15 are padding; flipping the
trailing padding bit 15 (kept at 1 by the encoder) yields `[255, 126]`,
which decodes to a failure instead of the original success — so flipping a
trailing padding bit DOES affect the decoded result. -/
theorem c6_pad_flip_counterexample :
    encode wCodes wBits [255] = [255, 127] ∧
    (encodeBits wCodes wBits [255]).length = 9 ∧
    bitsToBytes ((bytesToBits [255, 127]).set 15
      (!(bytesToBits [255, 127]).getD 15 true)) = [255, 126] ∧
    decode wTree [255, 127] [] = some (true, [255]) ∧
    decode wTree [255, 126] [] = some (false, [255]) :=
  ⟨by decide, by decide, by decide, by decide, by decide⟩

/-- Claim C6 (amended): flipping any single bit of a valid encoded buffer —
non-padding or padding alike — either produces a decode failure or a
decoded literal different from the original; it never silently reproduces
the original literal.  (The original claim's second half, that flipping a
trailing padding bit does not affect the decoded result, is false: the
padding must stay all-1s, so such a flip is detected.) -/
theorem c6_flip_amended (t : List SuperHuffNode) (codes bitsT : Nat → Nat)
    (pfx : Nat → Nat × Nat) (hf : faithfulWith t codes bitsT pfx = true)
    (l : List Nat) (i : Nat)
    (hi : i < (bytesToBits (encode codes bitsT l)).length) :
    decode t (bitsToBytes ((bytesToBits (encode codes bitsT l)).set i
      (!(bytesToBits (encode codes bitsT l)).getD i true))) [] ≠
      some (true, l) := by
  intro hcontra
  have hlen1 : ((bytesToBits (encode codes bitsT l)).set i
      (!(bytesToBits (encode codes bitsT l)).getD i true)).length =
      (bytesToBits (encode codes bitsT l)).length := List.length_set ..
  have hmod : ((bytesToBits (encode codes bitsT l)).set i
      (!(bytesToBits (encode codes bitsT l)).getD i true)).length % 8 = 0 := by
    rw [hlen1, bytesToBits_length]
    omega
  have hbits := bytesToBits_bitsToBytes _ hmod
  obtain ⟨rem, heq, hones, hrlen⟩ :=
    decode_success_unique t codes bitsT pfx hf _ l hcontra
  rw [hbits] at heq
  have henc := bytesToBits_encode codes bitsT l
  have hlr : rem.length = padBits (encodeBits codes bitsT l).length := by
    have e1 := congrArg List.length heq
    have e2 := congrArg List.length henc
    simp only [List.length_append, List.length_replicate] at e1 e2
    rw [hlen1] at e1
    omega
  have hrep : rem =
      List.replicate (padBits (encodeBits codes bitsT l).length) true := by
    rw [allOnes_eq_replicate hones, hlr]
  have hsame : (bytesToBits (encode codes bitsT l)).set i
      (!(bytesToBits (encode codes bitsT l)).getD i true) =
      bytesToBits (encode codes bitsT l) := by
    rw [heq, hrep, ← henc]
  have hq := congrArg (fun l2 : List Bool => l2[i]?) hsame
  simp only [] at hq
  rw [List.getElem?_set_self hi, List.getD_eq_getElem _ _ hi,
    List.getElem?_eq_getElem hi] at hq
  have hww := Option.some.inj hq
  simp at hww

/-- Witness for the amended C6 at the model table, literal `[0]`, bit 3. -/
theorem c6_flip_amended_witness :
    decode wTree (bitsToBytes ((bytesToBits (encode wCodes wBits [0])).set 3
      (!(bytesToBits (encode wCodes wBits [0])).getD 3 true))) [] ≠
      some (true, [0]) :=
  c6_flip_amended wTree wCodes wBits wPfx (by decide) [0] 3 (by decide)

/-- Counterexample to C7 as stated: the literal `[0, 1]` has the valid
2-byte encoding `[0, 1]` with no padding at all, so the removed final byte
carried only real bits; yet decoding the truncated buffer `[0]` SUCCEEDS
(with the shorter literal `[0]`) instead of failing. -/
theorem c7_truncation_counterexample :
    encode wCodes wBits [0, 1] = [0, 1] ∧
    padBits (encodeBits wCodes wBits [0, 1]).length = 0 ∧
    (encode wCodes wBits [0, 1]).dropLast = [0] ∧
    decode wTree ((encode wCodes wBits [0, 1]).dropLast) [] =
      some (true, [0]) :=
  ⟨by decide, by decide, by decide, by decide⟩

/-- Claim C7 (amended): decoding a valid multi-byte encoded buffer with its
final byte removed never returns success with the original literal — it
fails or yields a different (shorter) literal.  (The original claim, that
truncation always causes outright decode failure, is false: the truncated
stream can end exactly at a code boundary or in all-1s bits and then
decodes successfully to a proper prefix of the literal.) -/
theorem c7_truncation_amended (t : List SuperHuffNode)
    (codes bitsT : Nat → Nat) (pfx : Nat → Nat × Nat)
    (hf : faithfulWith t codes bitsT pfx = true) (l : List Nat)
    (h2 : 2 ≤ (encode codes bitsT l).length) :
    decode t ((encode codes bitsT l).dropLast) [] ≠ some (true, l) := by
  intro hcontra
  obtain ⟨rem, heq, hones, hrlen⟩ :=
    decode_success_unique t codes bitsT pfx hf _ l hcontra
  have e1 := congrArg List.length heq
  rw [bytesToBits_length, List.length_dropLast, List.length_append] at e1
  have e8 := encode_length8 codes bitsT l
  have hpb := padBits_lt (encodeBits codes bitsT l).length
  omega

/-- Witness for the amended C7 at the model table and literal `[0, 1]`. -/
theorem c7_truncation_amended_witness :
    decode wTree ((encode wCodes wBits [0, 1]).dropLast) [] ≠
      some (true, [0, 1]) :=
  c7_truncation_amended wTree wCodes wBits wPfx (by decide) [0, 1] (by decide)

/-- Claim C8: when at most 8 bits of a code remain, insert sets every key
whose high-order bits match the code's remaining tail — a range of exactly
`2 ^ (8 - bits)` keys — to the same leaf carrying the symbol and a
consumed-bit count equal to the remaining bits. -/
theorem c8_insert_fill (t : List SuperHuffNode) (cur code r ch : Nat)
    (hr1 : 1 ≤ r) (hr : r ≤ 8) (hcur : cur < t.length) :
    (∀ k, k < 256 → k / 2 ^ (8 - r) = code % 2 ^ r →
      getNode (insertFrom t cur code r ch) cur k = ⟨ch, r, 0⟩) ∧
    ((Finset.range 256).filter (fun k => k / 2 ^ (8 - r) = code % 2 ^ r)).card =
      2 ^ (8 - r) := by
  constructor
  · intro k hk hdiv
    rw [insertFrom_fill t cur code r ch hr hcur k, if_pos hdiv]
  · apply fill_range_card _ _ (Nat.two_pow_pos _)
    have hqlt : code % 2 ^ r < 2 ^ r := Nat.mod_lt _ (Nat.two_pow_pos _)
    have h28 : 2 ^ r * 2 ^ (8 - r) = 256 := by
      rw [← Nat.pow_add]
      have hx : r + (8 - r) = 8 := by omega
      rw [hx]
    calc (code % 2 ^ r + 1) * 2 ^ (8 - r)
        ≤ 2 ^ r * 2 ^ (8 - r) := Nat.mul_le_mul_right _ (by omega)
      _ = 256 := h28

/-- Witness for C8: inserting code `101` (3 bits) for symbol 7 into a fresh
root level. -/
theorem c8_insert_fill_witness :
    (∀ k, k < 256 → k / 2 ^ (8 - 3) = 5 % 2 ^ 3 →
      getNode (insertFrom [emptySuper] 0 5 3 7) 0 k = ⟨7, 3, 0⟩) ∧
    ((Finset.range 256).filter (fun k => k / 2 ^ (8 - 3) = 5 % 2 ^ 3)).card =
      2 ^ (8 - 3) :=
  c8_insert_fill [emptySuper] 0 5 3 7 (by decide) (by decide) (by decide)

/-- Claim C9: decode performs no rollback of the output accumulator on
failure: whatever the result flag, the final accumulator is the caller's
initial accumulator extended by exactly the characters appended before the
loop stopped, and those characters are what a decode into an empty
accumulator would produce. -/
theorem c9_no_rollback (t : List SuperHuffNode) (buf acc : List Nat)
    (b : Bool) (out : List Nat) (h : decode t buf acc = some (b, out)) :
    ∃ app, out = acc ++ app ∧ decode t buf [] = some (b, app) := by
  rw [decode, decodeLoop_acc] at h
  obtain ⟨⟨b2, app⟩, hbase, hmap⟩ := Option.map_eq_some'.mp h
  have hb : b2 = b := congrArg (·.1) hmap
  have hout : acc ++ app = out := congrArg (·.2) hmap
  refine ⟨app, hout.symm, ?_⟩
  rw [decode, hbase, hb]

/-- Witness for C9: a failing decode with a non-empty initial accumulator
keeps the pre-failure appends visible. -/
theorem c9_no_rollback_witness :
    ∃ app, [107, 255] = [107] ++ app ∧
      decode wTree [255, 126] [] = some (false, app) :=
  c9_no_rollback wTree [255, 126] [107] false [107, 255] (by decide)

/-- Claim C10: a node is a leaf exactly when its `superNode` index is the
sentinel 0, and in every tree produced by construction no slot ever links
to level 0 (the root): every branch target is an allocated level with index
at least 1 and below the level count, so the sentinel unambiguously tags
leaves. -/
theorem c10_leaf_sentinel (codes bitsT : Nat → Nat) :
    (∀ n : HuffNode, n.isLeaf = true ↔ n.superNode = 0) ∧
    1 ≤ (buildTree codes bitsT).length ∧
    ∀ s k : Nat, (getNode (buildTree codes bitsT) s k).isLeaf = false →
      1 ≤ (getNode (buildTree codes bitsT) s k).superNode ∧
      (getNode (buildTree codes bitsT) s k).superNode <
        (buildTree codes bitsT).length := by
  obtain ⟨h1, h2⟩ := buildTree_good codes bitsT
  refine ⟨fun n => by simp [HuffNode.isLeaf], h1, fun s k hleaf => ?_⟩
  rcases h2 s k with h | h
  · exfalso
    simp [HuffNode.isLeaf, h] at hleaf
  · exact h

/-- Witness for C10 at the model table: the branch slot at root key 255. -/
theorem c10_leaf_sentinel_witness :
    1 ≤ (getNode (buildTree wCodes wBits) 0 255).superNode ∧
    (getNode (buildTree wCodes wBits) 0 255).superNode <
      (buildTree wCodes wBits).length :=
  (c10_leaf_sentinel wCodes wBits).2.2 0 255 (by decide)

end ProxygenHuffman
